import Mathlib

/-!
# Verification of the zerox document-structure extraction core

Shallow embedding of `src/node-zerox/src/utils.ts`: the markdown-tree
flattening pipeline (`markdownToJson`, `processNode`, `processListItem`,
`processRootNode`, the heading stack) and the orientation-correction
pipeline (`determineOptimalRotation`, `getTextFromImage`).

Modelling conventions:
* `nanoid()` is replaced by an explicit natural-number counter threaded
  through every call; only freshness/identity of ids matters to the
  properties below, never their concrete shape.
* JavaScript dynamic values flowing through `ProcessedNode.value`
  (strings, `undefined`, node objects, arrays of values) are captured by
  the inductive type `JsValue`, together with JavaScript's string
  coercions for `Array.prototype.join` and string `+`.
* Fallible external calls (sharp, Tesseract) are oracles returning
  `Except`.
-/

set_option maxHeartbeats 4000000

namespace Zerox

/-- Modelled from the spec: the closed output-type enumeration
(`ConvertedNodeType` lives in `src/node-zerox/src/types.ts`, which is not
part of the sources; §3 of the spec describes it as "a closed output-type
enumeration derived from AstNode.kind (defaulting to text for
unrecognized kinds)", and the code uses the members `heading`, `list`
and `text`). -/
inductive ConvertedNodeType where
  | heading
  | list
  | text
deriving DecidableEq

mutual
/-- Output record of the flattener (`ProcessedNode` of `types.ts` as the
code actually populates it): `page` is optional because the placeholder
node synthesized in `processListItem` is created without a `page`
property. -/
inductive ProcessedNode where
  | mk (id : Nat) (page : Option Nat) (parentId : Option Nat)
       (type : ConvertedNodeType) (value : JsValue)
/-- A JavaScript value stored in a `value` field: a string, `undefined`,
a nested `ProcessedNode` object, or an array of values. -/
inductive JsValue where
  | undef
  | str (s : String)
  | node (n : ProcessedNode)
  | arr (l : List JsValue)
end

def ProcessedNode.id : ProcessedNode → Nat
  | .mk i _ _ _ _ => i

def ProcessedNode.page : ProcessedNode → Option Nat
  | .mk _ pg _ _ _ => pg

def ProcessedNode.parentId : ProcessedNode → Option Nat
  | .mk _ _ pid _ _ => pid

def ProcessedNode.type : ProcessedNode → ConvertedNodeType
  | .mk _ _ _ t _ => t

def ProcessedNode.value : ProcessedNode → JsValue
  | .mk _ _ _ _ v => v

/-- `newNode.value += ...` mutates only the `value` field. -/
def ProcessedNode.withValue : ProcessedNode → JsValue → ProcessedNode
  | .mk i pg pid t _, v => .mk i pg pid t v

mutual
def decEqProcessedNode : (a b : ProcessedNode) → Decidable (a = b)
  | .mk i pg pid t v, .mk i' pg' pid' t' v' =>
    if h1 : i = i' then
      if h2 : pg = pg' then
        if h3 : pid = pid' then
          if h4 : t = t' then
            match decEqJsValue v v' with
            | .isTrue h5 => .isTrue (by rw [h1, h2, h3, h4, h5])
            | .isFalse h5 => .isFalse (by intro h; injection h; contradiction)
          else .isFalse (by intro h; injection h; contradiction)
        else .isFalse (by intro h; injection h; contradiction)
      else .isFalse (by intro h; injection h; contradiction)
    else .isFalse (by intro h; injection h; contradiction)
def decEqJsValue : (a b : JsValue) → Decidable (a = b)
  | .undef, .undef => .isTrue rfl
  | .undef, .str _ => .isFalse (fun h => JsValue.noConfusion h)
  | .undef, .node _ => .isFalse (fun h => JsValue.noConfusion h)
  | .undef, .arr _ => .isFalse (fun h => JsValue.noConfusion h)
  | .str _, .undef => .isFalse (fun h => JsValue.noConfusion h)
  | .str s, .str s' =>
    if h : s = s' then .isTrue (by rw [h])
    else .isFalse (by intro hh; injection hh; contradiction)
  | .str _, .node _ => .isFalse (fun h => JsValue.noConfusion h)
  | .str _, .arr _ => .isFalse (fun h => JsValue.noConfusion h)
  | .node _, .undef => .isFalse (fun h => JsValue.noConfusion h)
  | .node _, .str _ => .isFalse (fun h => JsValue.noConfusion h)
  | .node n, .node n' =>
    match decEqProcessedNode n n' with
    | .isTrue h => .isTrue (by rw [h])
    | .isFalse h => .isFalse (by intro hh; injection hh; contradiction)
  | .node _, .arr _ => .isFalse (fun h => JsValue.noConfusion h)
  | .arr _, .undef => .isFalse (fun h => JsValue.noConfusion h)
  | .arr _, .str _ => .isFalse (fun h => JsValue.noConfusion h)
  | .arr _, .node _ => .isFalse (fun h => JsValue.noConfusion h)
  | .arr l, .arr l' =>
    match decEqJsValueList l l' with
    | .isTrue h => .isTrue (by rw [h])
    | .isFalse h => .isFalse (by intro hh; injection hh; contradiction)
def decEqJsValueList : (a b : List JsValue) → Decidable (a = b)
  | [], [] => .isTrue rfl
  | [], _ :: _ => .isFalse (fun h => List.noConfusion h)
  | _ :: _, [] => .isFalse (fun h => List.noConfusion h)
  | x :: xs, y :: ys =>
    match decEqJsValue x y with
    | .isTrue h =>
      match decEqJsValueList xs ys with
      | .isTrue h' => .isTrue (by rw [h, h'])
      | .isFalse h' => .isFalse (by intro hh; injection hh; contradiction)
    | .isFalse h => .isFalse (by intro hh; injection hh; contradiction)
end

instance : DecidableEq ProcessedNode := decEqProcessedNode
instance : DecidableEq JsValue := decEqJsValue

/-- An mdast node as seen by the flattener: a `type` string, a heading
`depth` (0 when the property is absent), a literal `value` and a
`children` array. -/
inductive AstNode where
  | mk (type : String) (depth : Nat) (value : String) (children : List AstNode)

def AstNode.type : AstNode → String
  | .mk t _ _ _ => t

def AstNode.depth : AstNode → Nat
  | .mk _ d _ _ => d

def AstNode.val : AstNode → String
  | .mk _ _ v _ => v

def AstNode.children : AstNode → List AstNode
  | .mk _ _ _ cs => cs

/-- `const literals = new Set([code, html, inlineCode, text])`. -/
def literals : List String := ["code", "html", "inlineCode", "text"]

/-- `const ignoreNodeTypes = new Set([break, definition, image,
imageReference, thematicBreak])`. -/
def ignoreNodeTypes : List String :=
  ["break", "definition", "image", "imageReference", "thematicBreak"]

/-- `ConvertedNodeType[node.type] || ConvertedNodeType.text`: the TS
string-enum lookup yields the member for "heading"/"list"/"text" and
`undefined` (hence the `text` default) for every other string. -/
def convType (t : String) : ConvertedNodeType :=
  if t = "heading" then .heading
  else if t = "list" then .list
  else .text

mutual
/-- Coercion JavaScript applies to an element inside
`Array.prototype.join`: `undefined` renders as "", an object as
"[object Object]", a nested array as its own comma-join. -/
def jsJoinElem : JsValue → String
  | .undef => ""
  | .str s => s
  | .node _ => "[object Object]"
  | .arr l => jsJoinList l
def jsJoinList : List JsValue → String
  | [] => ""
  | [v] => jsJoinElem v
  | v :: vs => jsJoinElem v ++ "," ++ jsJoinList vs
end

/-- Coercion JavaScript applies to an operand of string `+`:
`undefined` renders as "undefined", an object as "[object Object]", an
array as its comma-join. -/
def jsAddElem : JsValue → String
  | .undef => "undefined"
  | .str s => s
  | .node _ => "[object Object]"
  | .arr l => jsJoinList l

/-- `gatherValue`: drop falsy results, keep each `mainNode.value`. -/
def gatherValue (rs : List (Option (ProcessedNode × List ProcessedNode))) :
    List JsValue :=
  rs.filterMap (fun o => o.map (fun r => r.1.value))

/-- `gatherSiblings`: reduce concatenating `siblings` of truthy results. -/
def gatherSiblings (rs : List (Option (ProcessedNode × List ProcessedNode))) :
    List ProcessedNode :=
  rs.foldl (fun acc o => match o with | some r => acc ++ r.2 | none => acc) []

/-- `result.node` of `processListItem` flowing into the wrapper
`mainNode.value`: `undefined` when no main node was merged. -/
def optNodeToJs : Option ProcessedNode → JsValue
  | none => .undef
  | some n => .node n

/-- `values.join(sep)` with JavaScript element coercion. -/
def jsJoinWith (sep : String) (vs : List JsValue) : String :=
  String.intercalate sep (vs.map jsJoinElem)

mutual
/-- `processNode(node, page, parentId)`: dispatch on `node.type` through
the literal set, the keys of `nodeProcessors` ("literal", "list",
"listItem", "parent"), the default parent processor, and the ignore set.
Returns the optional `{mainNode, siblings}` pair plus the advanced id
counter. -/
def processNode : AstNode → Nat → Option Nat → Nat →
    Option (ProcessedNode × List ProcessedNode) × Nat
  | .mk t _ v cs, page, parentId, c =>
    if literals.contains t then
      (some (.mk c (some page) parentId (convType t) (.str v), []), c + 1)
    else if t = "list" then
      let (rs, c1) := processChildren cs page c
      (some (.mk c1 (some page) parentId (convType t)
        (.arr (gatherValue rs)), gatherSiblings rs), c1 + 1)
    else if t = "listItem" then
      let (r, c1) := processListItemAux cs page none [] c
      (some (.mk c1 (some page) parentId (convType t)
        (optNodeToJs r.1), r.2), c1 + 1)
    else if t = "literal" then
      (some (.mk c (some page) parentId (convType t) (.str v), []), c + 1)
    else if t = "parent" then
      let (rs, c1) := processChildren cs page c
      (some (.mk c1 (some page) parentId (convType t)
        (.str (jsJoinWith " " (gatherValue rs))), gatherSiblings rs), c1 + 1)
    else if ignoreNodeTypes.contains t then
      (none, c)
    else
      let (rs, c1) := processChildren cs page c
      (some (.mk c1 (some page) parentId (convType t)
        (.str (jsJoinWith " " (gatherValue rs))), gatherSiblings rs), c1 + 1)

/-- `node.children.map((childNode) => processNode(childNode, page))`. -/
def processChildren : List AstNode → Nat → Nat →
    List (Option (ProcessedNode × List ProcessedNode)) × Nat
  | [], _, c => ([], c)
  | n :: ns, page, c =>
    let (r, c1) := processNode n page none c
    let (rs, c2) := processChildren ns page c1
    (r :: rs, c2)

/-- The `forEach` body of `processListItem`, with the mutable
`newNode`/`siblings` locals made explicit accumulator arguments. -/
def processListItemAux : List AstNode → Nat → Option ProcessedNode →
    List ProcessedNode → Nat →
    (Option ProcessedNode × List ProcessedNode) × Nat
  | [], _, newNode, siblings, c => ((newNode, siblings), c)
  | child :: rest, page, newNode, siblings, c =>
    if child.type ≠ "list" then
      match processNode child page none c with
      | (none, c1) => processListItemAux rest page newNode siblings c1
      | (some (m, msibs), c1) =>
        match newNode with
        | some n =>
          processListItemAux rest page
            (some (n.withValue (.str (jsAddElem n.value ++ jsAddElem m.value))))
            (siblings ++ msibs) c1
        | none => processListItemAux rest page (some m) (siblings ++ msibs) c1
    else
      match newNode with
      | none =>
        -- `{id: nanoid(), parentId: undefined, type: text, value: ""}`:
        -- the object literal carries no `page` property.
        let fresh := ProcessedNode.mk c none none .text (.str "")
        match processNode child page (some c) (c + 1) with
        | (none, c2) => processListItemAux rest page (some fresh) siblings c2
        | (some (m, msibs), c2) =>
          processListItemAux rest page (some fresh)
            (siblings ++ m :: msibs) c2
      | some n =>
        match processNode child page (some n.id) c with
        | (none, c2) => processListItemAux rest page (some n) siblings c2
        | (some (m, msibs), c2) =>
          processListItemAux rest page (some n) (siblings ++ m :: msibs) c2
end

/-- `processListItem(node, page)`. -/
def processListItem (node : AstNode) (page : Nat) (c : Nat) :
    (Option ProcessedNode × List ProcessedNode) × Nat :=
  processListItemAux node.children page none [] c

/-- `processRootNode`: `[nodes.mainNode, ...nodes.siblings]`, or `[]`
when `processNode` returned nothing. -/
def processRootNode (node : AstNode) (page : Nat) (parentId : Option Nat)
    (c : Nat) : List ProcessedNode × Nat :=
  match processNode node page parentId c with
  | (none, c1) => ([], c1)
  | (some (m, sibs), c1) => (m :: sibs, c1)

/-- One `parentIdManager` entry `{id, depth}`. -/
abbrev ParentId := Nat × Nat

/-- `parentIdManager.at(-1)?.depth || 0` with the stack kept top-first. -/
def topDepth (stack : List ParentId) : Nat :=
  ((stack.head?).map Prod.snd).getD 0

/-- The `for` loop that pops the heading stack: pop once, then stop as
soon as the incoming depth exceeds the new top's depth (0 when empty). -/
def popLoop (d : Nat) : List ParentId → List ParentId
  | [] => []
  | _ :: rest => if topDepth rest < d then rest else popLoop d rest

/-- The `parsedMd.children.forEach` driver of `markdownToJson`, with the
heading stack, output array and id counter explicit. -/
def markdownToJsonAux (page : Nat) : List AstNode → List ParentId →
    List ProcessedNode → Nat → List ProcessedNode
  | [], _, out, _ => out
  | node :: rest, stack, out, c =>
    let stack1 :=
      if node.type = "heading" ∧ node.depth ≤ topDepth stack then
        popLoop node.depth stack
      else stack
    let (batch, c1) :=
      processRootNode node page ((stack1.head?).map Prod.fst) c
    let stack2 :=
      if node.type = "heading" then
        -- `processedNode[0].id`; a heading always yields a main node.
        match batch.head? with
        | some m => (m.id, node.depth) :: stack1
        | none => stack1
      else stack1
    markdownToJsonAux page rest stack2 (out ++ batch) c1

/-- `markdownToJson(markdownString, page)` after the external parser has
produced the root's children. -/
def markdownToJson (children : List AstNode) (page : Nat) :
    List ProcessedNode :=
  markdownToJsonAux page children [] [] 0

/-! ### Observation functions on the output -/

mutual
/-- All ids of a `ProcessedNode`: its own id plus every id of a node
embedded in its `value` (list items are stored inside list values). -/
def nodeIds : ProcessedNode → List Nat
  | .mk i _ _ _ v => i :: valueIds v
def valueIds : JsValue → List Nat
  | .undef => []
  | .str _ => []
  | .node n => nodeIds n
  | .arr l => idsList l
def idsList : List JsValue → List Nat
  | [] => []
  | v :: vs => valueIds v ++ idsList vs
end

mutual
/-- All `page` fields of a `ProcessedNode`, embedded nodes included. -/
def nodePages : ProcessedNode → List (Option Nat)
  | .mk _ pg _ _ v => pg :: valuePages v
def valuePages : JsValue → List (Option Nat)
  | .undef => []
  | .str _ => []
  | .node n => nodePages n
  | .arr l => pagesList l
def pagesList : List JsValue → List (Option Nat)
  | [] => []
  | v :: vs => valuePages v ++ pagesList vs
end

/-- All `page` fields across an output sequence. -/
def allPages (out : List ProcessedNode) : List (Option Nat) :=
  (out.map nodePages).flatten

/-- All ids across an output sequence, embedded nodes included. -/
def allIds (out : List ProcessedNode) : List Nat :=
  (out.map nodeIds).flatten

/-- `parentId` validity of an output sequence (claim C1): walking the
sequence with the list `seen` of ids encountered so far, every present
`parentId` must be an id of a node that appears no later than the
referencing node — as a sequence element or embedded in one. -/
def parentOk : List Nat → List ProcessedNode → Prop
  | _, [] => True
  | seen, n :: rest =>
    (∀ p, n.parentId = some p → p ∈ seen ++ nodeIds n) ∧
    parentOk (seen ++ nodeIds n) rest

instance refDec (o : Option Nat) (L : List Nat) :
    Decidable (∀ p, o = some p → p ∈ L) :=
  match o with
  | none => .isTrue (by simp)
  | some q =>
    if h : q ∈ L then .isTrue (by simpa using h)
    else .isFalse (by simpa using h)

instance parentOkDec : ∀ seen out, Decidable (parentOk seen out)
  | _, [] => .isTrue trivial
  | seen, n :: rest =>
    have : Decidable (parentOk (seen ++ nodeIds n) rest) :=
      parentOkDec _ rest
    by unfold parentOk; exact instDecidableAnd

/-- Chained validity of a block of sibling nodes: each sibling's
`parentId`, when present, is an id available in `base` or contributed by
a strictly earlier sibling of the block. -/
def sibOk : List Nat → List ProcessedNode → Prop
  | _, [] => True
  | base, s :: rest =>
    (∀ p, s.parentId = some p → p ∈ base) ∧ sibOk (base ++ nodeIds s) rest

/-- Invariant carried by `processListItem`'s accumulator: when no main
node has been merged yet no sibling exists; once one exists its value
is a string and the collected siblings chain their parent references
off its id. -/
def itemInv : Option ProcessedNode × List ProcessedNode → Prop
  | (none, sibs) => sibs = []
  | (some n, sibs) => (∃ s, n.value = JsValue.str s) ∧ sibOk (nodeIds n) sibs

/-! ### Well-placed lists

`processNode`'s default "parent" processor keeps only the joined string
value of each child and drops the child's main node object, while still
hoisting the child's siblings.  A nested list therefore keeps valid
parent references only while no list/list-item lives below a
default-processed ("parent"-kind) node.  The predicates below carve out
that fragment (which contains everything the markdown grammar can place
at a page root outside of blockquote/footnote-style containers). -/

mutual
/-- No list or list-item anywhere in this subtree. -/
def plain : AstNode → Bool
  | .mk t _ _ cs => !(t == "list") && !(t == "listItem") && plainList cs
def plainList : List AstNode → Bool
  | [] => true
  | c :: cs => plain c && plainList cs
end

mutual
/-- Children of a `list` node: all list items, recursively well placed. -/
def okListChildren : List AstNode → Bool
  | [] => true
  | .mk t _ _ gcs :: cs =>
    (t == "listItem") && okItemChildren gcs && okListChildren cs
/-- Children of a `listItem` node: nested lists are well placed and
every other child is list-free. -/
def okItemChildren : List AstNode → Bool
  | [] => true
  | .mk t d v gcs :: cs =>
    (if t = "list" then okListChildren gcs else plain (.mk t d v gcs)) &&
    okItemChildren cs
end

/-- A top-level AST child on which parent references stay valid: a well
placed list or list item, or a subtree containing no list at all. -/
def okTop (n : AstNode) : Bool :=
  if n.type = "list" then okListChildren n.children
  else if n.type = "listItem" then okItemChildren n.children
  else plain n

/-! ### Orientation correction (`getTextFromImage`,
`determineOptimalRotation`) -/

/-- `const MIN_ROTATION_CONFIDENCE = 60`. -/
def MIN_ROTATION_CONFIDENCE : ℚ := 60

/-- `sharp(buffer).metadata()`: `width`/`height` are optional fields. -/
structure SharpMeta where
  width : Option Int
  height : Option Int

/-- The body of `getTextFromImage`'s `try` block: read the metadata,
crop a 150px-wide centered full-height column, recognize it.  The
`extract` and `recognize` collaborators are oracles that may fail; the
crop rectangle is passed as (left, top, width, height), with `left`
absent when the metadata had no width (the JavaScript arithmetic on
`undefined` produces `NaN`, which sharp rejects). -/
def ocrPipeline (metadata : Except String SharpMeta)
    (extract : Option Int → Int → Int → Int → Except String Nat)
    (recognize : Nat → Except String ℚ) : Except String ℚ :=
  match metadata with
  | .error e => .error e
  | .ok md =>
    -- cropWidth = 150, cropHeight = metadata.height || 0, top = 0,
    -- left = Math.max(0, Math.floor((metadata.width! - cropWidth) / 2))
    match extract (md.width.map (fun w => max 0 ((w - 150) / 2))) 0 150
        (md.height.getD 0) with
    | .error e => .error e
    | .ok croppedBuffer => recognize croppedBuffer

/-- `getTextFromImage`: the `try`/`catch` around the pipeline — any
failure is absorbed and degraded to confidence 0. -/
def getTextFromImage (metadata : Except String SharpMeta)
    (extract : Option Int → Int → Int → Int → Except String Nat)
    (recognize : Nat → Except String ℚ) : ℚ :=
  match ocrPipeline metadata extract recognize with
  | .ok confidence => confidence
  | .error _ => 0

/-- `const rotations = [0, 90, 180, 270]`. -/
def rotations : List Nat := [0, 90, 180, 270]

/-- The awaited `results` array: one `{rotation, confidence}` trial per
candidate, the confidence supplied by the (already degraded-on-failure)
scorer. -/
def trials (conf : Nat → ℚ) : List (Nat × ℚ) :=
  rotations.map (fun rotation => (rotation, conf rotation))

/-- `Array.prototype.reduce` with no initial value: seed with the first
element (JavaScript throws on an empty array, hence the `Option`). -/
def reduce1 {α : Type} (f : α → α → α) : List α → Option α
  | [] => none
  | x :: xs => some (xs.foldl f x)

/-- `results.reduce((best, current) => current.confidence >
best.confidence ? current : best)`. -/
def bestResult (conf : Nat → ℚ) : Nat × ℚ :=
  (reduce1 (fun best current => if current.2 > best.2 then current else best)
    (trials conf)).getD (0, 0)

/-- `determineOptimalRotation`, abstracted over the per-rotation
confidence outcome: keep the best trial's rotation only when it clears
the threshold and is non-zero. -/
def determineOptimalRotation (conf : Nat → ℚ) : Nat :=
  let best := bestResult conf
  if MIN_ROTATION_CONFIDENCE ≤ best.2 ∧ best.1 ≠ 0 then best.1 else 0

/-- Modelled from the spec: "first candidate in rotation order
\x7b0,90,180,270\x7d achieving the maximum" — the selection rule the
reduction is claimed to implement (claim C5). -/
def specFirstMax (conf : Nat → ℚ) : Nat × ℚ :=
  if conf 90 ≤ conf 0 ∧ conf 180 ≤ conf 0 ∧ conf 270 ≤ conf 0 then (0, conf 0)
  else if conf 180 ≤ conf 90 ∧ conf 270 ≤ conf 90 then (90, conf 90)
  else if conf 270 ≤ conf 180 then (180, conf 180)
  else (270, conf 270)

/-! ### Concrete fixtures

mdast shapes of small markdown documents, used to instantiate the
claims' worked examples. -/

def textNode (s : String) : AstNode := .mk "text" 0 s []

def paragraphNode (cs : List AstNode) : AstNode := .mk "paragraph" 0 "" cs

/-- A heading of the given depth over a single text child. -/
def headingNode (d : Nat) (s : String) : AstNode := .mk "heading" d "" [textNode s]

def listItemNode (cs : List AstNode) : AstNode := .mk "listItem" 0 "" cs

def listNode (cs : List AstNode) : AstNode := .mk "list" 0 "" cs

def blockquoteNode (cs : List AstNode) : AstNode := .mk "blockquote" 0 "" cs

def imageNode : AstNode := .mk "image" 0 "" []

def thematicBreakNode : AstNode := .mk "thematicBreak" 0 "" []

/-- Top-level headings of depths [1, 2, 3, 2, 1] (claim C2). -/
def fiveHeadings : List AstNode :=
  [headingNode 1 "a", headingNode 2 "b", headingNode 3 "c",
   headingNode 2 "d", headingNode 1 "e"]

/-- The list item `[text "a", list [item [text "b"]]]` (claim C7). -/
def mixedListItem : AstNode :=
  listItemNode [textNode "a", listNode [listItemNode [textNode "b"]]]

/-- `- a` with nested `- b`: a top-level list whose item carries a
paragraph and a sub-list. -/
def nestedListAst : AstNode :=
  listNode [listItemNode [paragraphNode [textNode "a"],
    listNode [listItemNode [paragraphNode [textNode "b"]]]]]

/-- `> - a` with nested `- b`: the same list inside a blockquote. -/
def quotedNestedListAst : AstNode := blockquoteNode [nestedListAst]

/-- A list whose item has its sub-list before any text content, so the
placeholder main node is synthesized (claim C3). -/
def subListFirstAst : AstNode :=
  listNode [listItemNode
    [listNode [listItemNode [paragraphNode [textNode "b"]]]]]

/-- A list whose first item contains only an ignored node (claim C10). -/
def droppedItemList : AstNode :=
  listNode [listItemNode [imageNode], listItemNode [textNode "x"]]

/-- Constructor tags of the elements of an array value (0 = undefined,
1 = string, 2 = node object, 3 = array). -/
def valueTags : JsValue → Option (List Nat)
  | .arr l => some (l.map fun e => match e with
      | .undef => 0 | .str _ => 1 | .node _ => 2 | .arr _ => 3)
  | _ => none

/-- Confidence outcomes 0:10, 90:85, 180:20, 270:40 (claim C4). -/
def confidencesA : Nat → ℚ :=
  fun r => if r = 90 then 85 else if r = 180 then 20 else if r = 270 then 40 else 10

/-- Confidence outcomes 0:50, 90:55, 180:10, 270:20 (claim C4). -/
def confidencesB : Nat → ℚ :=
  fun r => if r = 90 then 55 else if r = 180 then 10 else if r = 270 then 20 else 50

/-! ## Theorems -/

/-! ### Supporting lemmas for the parent-reference invariant (C1) -/

theorem gatherSiblings_foldl : ∀ (rs : List (Option (ProcessedNode × List ProcessedNode)))
    (acc : List ProcessedNode),
    rs.foldl (fun acc o => match o with | some r => acc ++ r.2 | none => acc) acc =
      acc ++ gatherSiblings rs := by
  intro rs
  induction rs with
  | nil => intro acc; simp [gatherSiblings]
  | cons r rs ih =>
    intro acc
    cases r <;> simp only [gatherSiblings, List.foldl_cons] <;> rw [ih, ih] <;>
      simp [List.append_assoc]

theorem gatherSiblings_cons_none (rs : List (Option (ProcessedNode × List ProcessedNode))) :
    gatherSiblings (none :: rs) = gatherSiblings rs := by
  simp only [gatherSiblings, List.foldl_cons]

theorem gatherSiblings_cons_some (x : ProcessedNode × List ProcessedNode)
    (rs : List (Option (ProcessedNode × List ProcessedNode))) :
    gatherSiblings (some x :: rs) = x.2 ++ gatherSiblings rs := by
  simp only [gatherSiblings, List.foldl_cons]
  rw [gatherSiblings_foldl]
  simp [gatherSiblings]

theorem gatherValue_cons_none (rs : List (Option (ProcessedNode × List ProcessedNode))) :
    gatherValue (none :: rs) = gatherValue rs := by
  simp [gatherValue, List.filterMap_cons]

theorem gatherValue_cons_some (x : ProcessedNode × List ProcessedNode)
    (rs : List (Option (ProcessedNode × List ProcessedNode))) :
    gatherValue (some x :: rs) = x.1.value :: gatherValue rs := by
  simp [gatherValue, List.filterMap_cons]

theorem allIds_cons (n : ProcessedNode) (out : List ProcessedNode) :
    allIds (n :: out) = nodeIds n ++ allIds out := by
  simp [allIds]

theorem allIds_append (xs ys : List ProcessedNode) :
    allIds (xs ++ ys) = allIds xs ++ allIds ys := by
  simp [allIds]

theorem idsList_cons (v : JsValue) (vs : List JsValue) :
    idsList (v :: vs) = valueIds v ++ idsList vs := by
  rw [idsList]

theorem nodeIds_mk (i : Nat) (pg : Option Nat) (pid : Option Nat)
    (t : ConvertedNodeType) (v : JsValue) :
    nodeIds (.mk i pg pid t v) = i :: valueIds v := by
  rw [nodeIds]

theorem id_mem_nodeIds (n : ProcessedNode) : n.id ∈ nodeIds n := by
  cases n with
  | mk i pg pid t v => rw [nodeIds_mk]; exact List.mem_cons_self _ _

theorem subset_append_left_compat {α : Type} {a b : List α} (c : List α)
    (h : a ⊆ b) : a ++ c ⊆ b ++ c := by
  intro x hx
  rcases List.mem_append.mp hx with h1 | h1
  · exact List.mem_append_left _ (h h1)
  · exact List.mem_append_right _ h1

theorem sibOk_mono : ∀ (l : List ProcessedNode) (base base2 : List Nat),
    base ⊆ base2 → sibOk base l → sibOk base2 l := by
  intro l
  induction l with
  | nil => intro base base2 hsub h; trivial
  | cons s rest ih =>
    intro base base2 hsub h
    obtain ⟨h1, h2⟩ := h
    exact ⟨fun p hp => hsub (h1 p hp),
      ih _ _ (subset_append_left_compat _ hsub) h2⟩

theorem sibOk_append : ∀ (xs ys : List ProcessedNode) (base : List Nat),
    sibOk base xs → sibOk (base ++ allIds xs) ys → sibOk base (xs ++ ys) := by
  intro xs
  induction xs with
  | nil =>
    intro ys base h1 h2
    simpa using sibOk_mono ys _ _ (by simp [allIds]) h2
  | cons x xs ih =>
    intro ys base h1 h2
    obtain ⟨hx, hxs⟩ := h1
    refine ⟨hx, ih ys _ hxs (sibOk_mono ys _ _ ?_ h2)⟩
    rw [allIds_cons]
    intro z hz
    simp only [List.append_assoc] at hz ⊢
    exact hz

theorem sibOk_parentOk : ∀ (l : List ProcessedNode) (seen : List Nat),
    sibOk seen l → parentOk seen l := by
  intro l
  induction l with
  | nil => intro seen h; trivial
  | cons s rest ih =>
    intro seen h
    obtain ⟨h1, h2⟩ := h
    exact ⟨fun p hp => List.mem_append_left _ (h1 p hp), ih _ h2⟩

theorem parentOk_append : ∀ (out batch : List ProcessedNode) (seen : List Nat),
    parentOk seen out → parentOk (seen ++ allIds out) batch →
    parentOk seen (out ++ batch) := by
  intro out
  induction out with
  | nil =>
    intro batch seen h1 h2
    simpa using (by simpa [allIds] using h2 : parentOk (seen ++ []) batch)
  | cons n os ih =>
    intro batch seen h1 h2
    obtain ⟨hn, hos⟩ := h1
    refine ⟨hn, ih batch _ hos ?_⟩
    rw [allIds_cons, ← List.append_assoc] at h2
    exact h2

theorem popLoop_subset : ∀ (d : Nat) (s : List ParentId), popLoop d s ⊆ s := by
  intro d s
  induction s with
  | nil => rw [popLoop]; exact List.Subset.refl _
  | cons e rest ih =>
    rw [popLoop]
    split
    · exact List.subset_cons_self _ _
    · exact ih.trans (List.subset_cons_self _ _)

mutual
theorem processNode_plain : ∀ (n : AstNode), plain n = true →
    ∀ (page : Nat) (pid : Option Nat) (c : Nat),
    (processNode n page pid c).1 = none ∨
    ∃ m, (processNode n page pid c).1 = some (m, []) ∧
      m.parentId = pid ∧ ∃ s, m.value = JsValue.str s
  | .mk t d v cs, hp, page, pid, c => by
    rw [plain] at hp
    simp only [Bool.and_eq_true, Bool.not_eq_true', beq_eq_false_iff_ne] at hp
    obtain ⟨⟨ht1, ht2⟩, hcs⟩ := hp
    rcases hpc : processChildren cs page c with ⟨rs, c1⟩
    have hsib : gatherSiblings rs = [] := by
      have h := processChildren_plain cs hcs page c
      rw [hpc] at h
      exact h
    rcases haux : processListItemAux cs page none [] c with ⟨ri, cx⟩
    simp only [processNode, hpc, haux]
    split_ifs with h1 h2 h3 h4
    · exact Or.inr ⟨_, rfl, rfl, _, rfl⟩
    · exact Or.inr ⟨_, rfl, rfl, _, rfl⟩
    · rw [hsib]
      exact Or.inr ⟨_, rfl, rfl, _, rfl⟩
    · exact Or.inl rfl
    · rw [hsib]
      exact Or.inr ⟨_, rfl, rfl, _, rfl⟩

theorem processChildren_plain : ∀ (cs : List AstNode), plainList cs = true →
    ∀ (page c : Nat), gatherSiblings (processChildren cs page c).1 = []
  | [], _, page, c => by
    simp [processChildren, gatherSiblings]
  | c0 :: cs, hp, page, c => by
    simp only [plainList, Bool.and_eq_true] at hp
    obtain ⟨hc0, hcs⟩ := hp
    rcases hpn : processNode c0 page none c with ⟨o, c1⟩
    rcases hpc : processChildren cs page c1 with ⟨rs, c2⟩
    simp only [processChildren, hpn, hpc]
    have hrest := processChildren_plain cs hcs page c1
    rw [hpc] at hrest
    have h0 := processNode_plain c0 hc0 page none c
    rw [hpn] at h0
    rcases h0 with h0 | ⟨m, h0, -, -⟩
    · simp only at h0
      subst h0
      rw [gatherSiblings_cons_none]
      exact hrest
    · simp only at h0
      subst h0
      rw [gatherSiblings_cons_some]
      simp [hrest]
end

mutual
theorem processListItemAux_inv : ∀ (cs : List AstNode), okItemChildren cs = true →
    ∀ (page : Nat) (nn : Option ProcessedNode) (sibs : List ProcessedNode) (c : Nat),
    itemInv (nn, sibs) → itemInv (processListItemAux cs page nn sibs c).1
  | [], _, page, nn, sibs, c, hinv => by
    simpa [processListItemAux] using hinv
  | (.mk t d v gcs) :: cs, hp, page, nn, sibs, c, hinv => by
    simp only [okItemChildren, Bool.and_eq_true] at hp
    obtain ⟨hc0, hcs⟩ := hp
    by_cases ht : t = "list"
    · subst ht
      rw [if_pos rfl] at hc0
      cases nn with
      | none =>
        simp only [itemInv] at hinv
        subst hinv
        rcases hpc : processChildren gcs page (c + 1) with ⟨rs, c1⟩
        have hMeq : processNode (.mk "list" d v gcs) page (some c) (c + 1) =
            (some (.mk c1 (some page) (some c) (convType "list")
              (.arr (gatherValue rs)), gatherSiblings rs), c1 + 1) := by
          simp only [processNode, hpc]
          simp [literals]
        simp only [processListItemAux, AstNode.type]
        rw [if_neg (by simp), hMeq]
        simp only [List.nil_append]
        apply processListItemAux_inv cs hcs page
        have hsub := processChildren_listOk gcs hc0 page (c + 1)
        rw [hpc] at hsub
        refine ⟨⟨"", rfl⟩, ?_⟩
        rw [nodeIds_mk]
        refine ⟨?_, ?_⟩
        · intro p hp2
          simp only [ProcessedNode.parentId, Option.some.injEq] at hp2
          subst hp2
          simp [valueIds]
        · apply sibOk_mono _ _ _ ?_ hsub
          intro x hx
          rw [nodeIds_mk]
          simp only [valueIds, List.cons_append, List.nil_append]
          exact List.mem_cons_of_mem _ (List.mem_cons_of_mem _ hx)
      | some n =>
        obtain ⟨⟨s, hs⟩, hsib⟩ := hinv
        rcases hpc : processChildren gcs page c with ⟨rs, c1⟩
        have hMeq : processNode (.mk "list" d v gcs) page (some n.id) c =
            (some (.mk c1 (some page) (some n.id) (convType "list")
              (.arr (gatherValue rs)), gatherSiblings rs), c1 + 1) := by
          simp only [processNode, hpc]
          simp [literals]
        simp only [processListItemAux, AstNode.type]
        rw [if_neg (by simp), hMeq]
        apply processListItemAux_inv cs hcs page
        have hsub := processChildren_listOk gcs hc0 page c
        rw [hpc] at hsub
        refine ⟨⟨s, hs⟩, ?_⟩
        apply sibOk_append _ _ _ hsib
        refine ⟨?_, ?_⟩
        · intro p hp2
          simp only [ProcessedNode.parentId, Option.some.injEq] at hp2
          subst hp2
          exact List.mem_append_left _ (id_mem_nodeIds n)
        · apply sibOk_mono _ _ _ ?_ hsub
          intro x hx
          rw [nodeIds_mk]
          simp only [valueIds]
          exact List.mem_append_right _ (List.mem_cons_of_mem _ hx)
    · rw [if_neg ht] at hc0
      have h0 := processNode_plain (.mk t d v gcs) hc0 page none c
      rcases hpn : processNode (.mk t d v gcs) page none c with ⟨o, c1⟩
      rw [hpn] at h0
      simp only [processListItemAux, AstNode.type]
      rw [if_pos ht, hpn]
      rcases h0 with h0 | ⟨m, h0, -, s2, hs2⟩
      · simp only at h0
        subst h0
        exact processListItemAux_inv cs hcs page nn sibs c1 hinv
      · simp only at h0
        subst h0
        cases nn with
        | none =>
          simp only [itemInv] at hinv
          subst hinv
          simp only [List.append_nil]
          apply processListItemAux_inv cs hcs page
          exact ⟨⟨s2, hs2⟩, trivial⟩
        | some n =>
          obtain ⟨⟨s, hs⟩, hsib⟩ := hinv
          simp only [List.append_nil]
          apply processListItemAux_inv cs hcs page
          cases n with
          | mk ni npg npid nty nv =>
            simp only [ProcessedNode.value] at hs
            subst hs
            refine ⟨⟨_, rfl⟩, ?_⟩
            simp only [ProcessedNode.withValue]
            rw [nodeIds_mk]
            rw [nodeIds_mk] at hsib
            simp only [valueIds] at hsib ⊢
            exact hsib

theorem processChildren_listOk : ∀ (cs : List AstNode), okListChildren cs = true →
    ∀ (page c : Nat),
    sibOk (idsList (gatherValue (processChildren cs page c).1))
          (gatherSiblings (processChildren cs page c).1)
  | [], _, page, c => by
    simp only [processChildren, gatherValue, gatherSiblings]
    trivial
  | (.mk t d v gcs) :: cs, hp, page, c => by
    simp only [okListChildren, Bool.and_eq_true, beq_iff_eq] at hp
    obtain ⟨⟨ht, hgcs⟩, hcs⟩ := hp
    subst ht
    rcases haux : processListItemAux gcs page none [] c with ⟨ri, c1⟩
    obtain ⟨rn, rsibs⟩ := ri
    have hWeq : processNode (.mk "listItem" d v gcs) page none c =
        (some (.mk c1 (some page) none (convType "listItem")
          (optNodeToJs rn), rsibs), c1 + 1) := by
      simp only [processNode, haux]
      simp [literals]
    rcases hpc : processChildren cs page (c1 + 1) with ⟨rs, c2⟩
    have hitem := processListItemAux_inv gcs hgcs page none [] c (by simp [itemInv])
    rw [haux] at hitem
    have hrest := processChildren_listOk cs hcs page (c1 + 1)
    rw [hpc] at hrest
    simp only [processChildren, hWeq, hpc]
    rw [gatherValue_cons_some, gatherSiblings_cons_some]
    simp only [ProcessedNode.value]
    rw [idsList_cons]
    apply sibOk_append
    · cases rn with
      | none =>
        simp only [itemInv] at hitem
        subst hitem
        trivial
      | some nn =>
        obtain ⟨-, hsib⟩ := hitem
        apply sibOk_mono _ _ _ ?_ hsib
        intro x hx
        simp only [optNodeToJs, valueIds]
        exact List.mem_append_left _ hx
    · apply sibOk_mono _ _ _ ?_ hrest
      intro x hx
      exact List.mem_append_left _ (List.mem_append_right _ hx)
end

theorem processNode_okTop (n : AstNode) (hok : okTop n = true) :
    ∀ (page : Nat) (pid : Option Nat) (c : Nat),
    (processNode n page pid c).1 = none ∨
    ∃ m sibs, (processNode n page pid c).1 = some (m, sibs) ∧
      m.parentId = pid ∧ sibOk (nodeIds m) sibs := by
  obtain ⟨t, d, v, cs⟩ := n
  intro page pid c
  rw [okTop] at hok
  simp only [AstNode.type, AstNode.children] at hok
  by_cases ht1 : t = "list"
  · subst ht1
    rw [if_pos rfl] at hok
    rcases hpc : processChildren cs page c with ⟨rs, c1⟩
    have hMeq : processNode (.mk "list" d v cs) page pid c =
        (some (.mk c1 (some page) pid (convType "list")
          (.arr (gatherValue rs)), gatherSiblings rs), c1 + 1) := by
      simp only [processNode, hpc]
      simp [literals]
    rw [hMeq]
    right
    refine ⟨_, _, rfl, rfl, ?_⟩
    have hsub := processChildren_listOk cs hok page c
    rw [hpc] at hsub
    apply sibOk_mono _ _ _ ?_ hsub
    intro x hx
    rw [nodeIds_mk]
    simp only [valueIds]
    exact List.mem_cons_of_mem _ hx
  · by_cases ht2 : t = "listItem"
    · subst ht2
      rw [if_neg (by decide), if_pos rfl] at hok
      rcases haux : processListItemAux cs page none [] c with ⟨⟨rn, rsibs⟩, c1⟩
      have hWeq : processNode (.mk "listItem" d v cs) page pid c =
          (some (.mk c1 (some page) pid (convType "listItem")
            (optNodeToJs rn), rsibs), c1 + 1) := by
        simp only [processNode, haux]
        simp [literals]
      rw [hWeq]
      right
      refine ⟨_, _, rfl, rfl, ?_⟩
      have hitem := processListItemAux_inv cs hok page none [] c (by simp [itemInv])
      rw [haux] at hitem
      cases rn with
      | none =>
        simp only [itemInv] at hitem
        subst hitem
        trivial
      | some nn =>
        obtain ⟨-, hsib⟩ := hitem
        apply sibOk_mono _ _ _ ?_ hsib
        intro x hx
        rw [nodeIds_mk]
        simp only [optNodeToJs, valueIds]
        exact List.mem_cons_of_mem _ hx
    · rw [if_neg ht1, if_neg ht2] at hok
      rcases processNode_plain (.mk t d v cs) hok page pid c with h | ⟨m, h, hpid, -⟩
      · exact Or.inl h
      · exact Or.inr ⟨m, [], h, hpid, trivial⟩

theorem head_id_mem (batch : List ProcessedNode) (m : ProcessedNode)
    (h : batch.head? = some m) : m.id ∈ allIds batch := by
  cases batch with
  | nil => simp at h
  | cons b bs =>
    simp only [List.head?_cons, Option.some.injEq] at h
    subst h
    rw [allIds_cons]
    exact List.mem_append_left _ (id_mem_nodeIds _)

theorem processRootNode_ok (node : AstNode) (hok : okTop node = true)
    (page c : Nat) (pid : Option Nat) (seen : List Nat)
    (hpid : ∀ p, pid = some p → p ∈ seen) :
    parentOk seen (processRootNode node page pid c).1 := by
  rcases processNode_okTop node hok page pid c with h | ⟨m, sibs, h, hmpid, hsib⟩
  · rcases hpn : processNode node page pid c with ⟨o, c1⟩
    rw [hpn] at h
    simp only at h
    subst h
    simp only [processRootNode, hpn]
    trivial
  · rcases hpn : processNode node page pid c with ⟨o, c1⟩
    rw [hpn] at h
    simp only at h
    subst h
    simp only [processRootNode, hpn]
    refine ⟨fun p hp => ?_, ?_⟩
    · rw [hmpid] at hp
      exact List.mem_append_left _ (hpid p hp)
    · apply sibOk_parentOk
      apply sibOk_mono _ _ _ ?_ hsib
      intro x hx
      exact List.mem_append_right _ hx

theorem markdownToJsonAux_parentOk : ∀ (nodes : List AstNode) (page : Nat)
    (stack : List ParentId) (out : List ProcessedNode) (c : Nat),
    nodes.all okTop = true →
    (∀ e ∈ stack, e.1 ∈ allIds out) →
    parentOk [] out →
    parentOk [] (markdownToJsonAux page nodes stack out c) := by
  intro nodes
  induction nodes with
  | nil =>
    intro page stack out c h1 h2 h3
    simpa [markdownToJsonAux] using h3
  | cons node rest ih =>
    intro page stack out c hall hstack hout
    simp only [List.all_cons, Bool.and_eq_true] at hall
    obtain ⟨hoknode, hokrest⟩ := hall
    simp only [markdownToJsonAux]
    by_cases hcond : node.type = "heading" ∧ node.depth ≤ topDepth stack
    · rw [if_pos hcond]
      have hstack1 : ∀ e ∈ popLoop node.depth stack, e.1 ∈ allIds out :=
        fun e he => hstack e (popLoop_subset node.depth stack he)
      rcases hpr : processRootNode node page
          (((popLoop node.depth stack).head?).map Prod.fst) c with ⟨batch, c1⟩
      have hbatch : parentOk (allIds out) batch := by
        have := processRootNode_ok node hoknode page c
          (((popLoop node.depth stack).head?).map Prod.fst) (allIds out) ?_
        · rw [hpr] at this
          exact this
        · intro p hp
          cases hs1 : (popLoop node.depth stack).head? with
          | none => rw [hs1] at hp; simp at hp
          | some e =>
            rw [hs1] at hp
            simp at hp
            subst hp
            exact hstack1 e (by
              cases hs2 : popLoop node.depth stack with
              | nil => rw [hs2] at hs1; simp at hs1
              | cons f fs =>
                rw [hs2] at hs1
                simp only [List.head?_cons, Option.some.injEq] at hs1
                subst hs1
                exact List.mem_cons_self _ _)
      have hout2 : parentOk [] (out ++ batch) := by
        apply parentOk_append out batch [] hout
        simpa using hbatch
      rw [if_pos hcond.1]
      cases hb : batch.head? with
      | none =>
        apply ih page _ _ c1 hokrest ?_ hout2
        intro e he
        rw [allIds_append]
        exact List.mem_append_left _ (hstack1 e he)
      | some m =>
        apply ih page _ _ c1 hokrest ?_ hout2
        intro e he
        rcases List.mem_cons.mp he with rfl | he2
        · rw [allIds_append]
          exact List.mem_append_right _ (head_id_mem batch m hb)
        · rw [allIds_append]
          exact List.mem_append_left _ (hstack1 e he2)
    · rw [if_neg hcond]
      rcases hpr : processRootNode node page ((stack.head?).map Prod.fst) c
        with ⟨batch, c1⟩
      have hbatch : parentOk (allIds out) batch := by
        have := processRootNode_ok node hoknode page c
          ((stack.head?).map Prod.fst) (allIds out) ?_
        · rw [hpr] at this
          exact this
        · intro p hp
          cases hs1 : stack.head? with
          | none => rw [hs1] at hp; simp at hp
          | some e =>
            rw [hs1] at hp
            simp at hp
            subst hp
            apply hstack
            cases hs2 : stack with
            | nil => rw [hs2] at hs1; simp at hs1
            | cons f fs =>
              rw [hs2] at hs1
              simp only [List.head?_cons, Option.some.injEq] at hs1
              subst hs1
              exact List.mem_cons_self _ _
      have hout2 : parentOk [] (out ++ batch) := by
        apply parentOk_append out batch [] hout
        simpa using hbatch
      by_cases hh : node.type = "heading"
      · rw [if_pos hh]
        cases hb : batch.head? with
        | none =>
          apply ih page _ _ c1 hokrest ?_ hout2
          intro e he
          rw [allIds_append]
          exact List.mem_append_left _ (hstack e he)
        | some m =>
          apply ih page _ _ c1 hokrest ?_ hout2
          intro e he
          rcases List.mem_cons.mp he with rfl | he2
          · rw [allIds_append]
            exact List.mem_append_right _ (head_id_mem batch m hb)
          · rw [allIds_append]
            exact List.mem_append_left _ (hstack e he2)
      · rw [if_neg hh]
        apply ih page _ _ c1 hokrest ?_ hout2
        intro e he
        rw [allIds_append]
        exact List.mem_append_left _ (hstack e he)

/-- C1 (amended): the claim as stated fails (see
`parent_reference_dangles_in_blockquote`); it holds for every page AST
whose lists are well placed — no list or list item anywhere below a
default-"parent"-processed container — which covers all markdown whose
lists occur at the page root or nested within other lists.  For such
input, every emitted node's `parentId`, when present, is the id of a
node appearing no later in the emission order (as a sequence element or
embedded in an earlier element's value). -/
theorem parentOk_of_wellPlaced_lists :
    ∀ (children : List AstNode) (page : Nat),
      children.all okTop = true →
      parentOk [] (markdownToJson children page) := by
  intro children page h
  exact markdownToJsonAux_parentOk children page [] [] 0 h (by simp) trivial

/-- Witness for C1 (amended): the nested list `- a / - b` is well
placed, and its flattening satisfies the parent-reference invariant. -/
theorem parentOk_of_wellPlaced_lists_witness :
    ([nestedListAst].all okTop = true) ∧
    parentOk [] (markdownToJson [nestedListAst] 1) :=
  ⟨by simp [nestedListAst, listNode, listItemNode, paragraphNode, textNode,
      List.all, okTop, AstNode.type, AstNode.children, okListChildren,
      okItemChildren, plain, plainList],
   parentOk_of_wellPlaced_lists [nestedListAst] 1
    (by simp [nestedListAst, listNode, listItemNode, paragraphNode, textNode,
      List.all, okTop, AstNode.type, AstNode.children, okListChildren,
      okItemChildren, plain, plainList])⟩

/-- C1 counterexample: flattening `> - a` with nested `- b` (a
blockquote around a nested list) emits a sub-list node whose `parentId`
(the paragraph node's id, 1) is the id of no node anywhere in the
output — the default "parent" processor for the blockquote discarded
the node that carried it — so the claimed invariant is false for this
markdown AST. -/
theorem parent_reference_dangles_in_blockquote :
    (markdownToJson [quotedNestedListAst] 1).map ProcessedNode.parentId =
      [none, some 1] ∧
    (1 : Nat) ∉ allIds (markdownToJson [quotedNestedListAst] 1) ∧
    ¬ parentOk [] (markdownToJson [quotedNestedListAst] 1) :=
  ⟨by decide, by decide, by decide⟩

/-- C2: when a top-level heading of depth `d` arrives with `d ≤` the
stack top's depth, the pop loop removes exactly the top entries of depth
`≥ d` (stopping as soon as the new top is strictly shallower, or the
stack empties); consequently, on headings of depths [1, 2, 3, 2, 1] the
depth-3 heading attaches to the first depth-2 heading, the second
depth-2 heading attaches to the depth-1 heading (not to the first
depth-2 heading, whose id is distinct), and the final depth-1 heading
has no parent. -/
theorem headingStack_pop_and_nesting :
    (∀ (d : Nat) (e : ParentId) (rest : List ParentId), d ≤ e.2 →
      popLoop d (e :: rest) = (e :: rest).dropWhile (fun x => decide (d ≤ x.2))) ∧
    (∃ i0 i1 i2 i3 i4,
      (markdownToJson fiveHeadings 1).map (fun n => (n.id, n.parentId)) =
        [(i0, none), (i1, some i0), (i2, some i1), (i3, some i0), (i4, none)] ∧
      i1 ≠ i0 ∧ i3 ≠ i1) := by
  constructor
  · intro d e rest hde
    induction rest generalizing e with
    | nil =>
      have h1 : List.dropWhile (fun x => decide (d ≤ x.2)) [e] = [] := by
        simp [List.dropWhile_cons, hde]
      rw [h1, popLoop]
      split
      · rfl
      · rw [popLoop]
    | cons f rs ih =>
      have h1 : List.dropWhile (fun x => decide (d ≤ x.2)) (e :: f :: rs) =
          List.dropWhile (fun x => decide (d ≤ x.2)) (f :: rs) := by
        simp [List.dropWhile_cons, hde]
      rw [h1, popLoop]
      rcases lt_or_le f.2 d with hf | hf
      · rw [if_pos (by simpa [topDepth] using hf)]
        simp [List.dropWhile_cons, not_le.mpr hf]
      · rw [if_neg (by simpa [topDepth] using hf.not_lt)]
        exact ih f hf
  · exact ⟨1, 3, 5, 7, 9, by decide, by decide, by decide⟩

/-- Witness for C2: the pop lemma applied at depth 2 against a stack
whose top entry has depth 3. -/
theorem headingStack_pop_and_nesting_witness :
    (2 : Nat) ≤ ((9, 3) : ParentId).2 ∧
    popLoop 2 [(9, 3), (1, 1)] =
      [((9, 3) : ParentId), (1, 1)].dropWhile (fun x => decide (2 ≤ x.2)) :=
  ⟨by decide, headingStack_pop_and_nesting.1 2 (9, 3) [(1, 1)] (by decide)⟩

/-- C3: the claim that every produced node carries the page passed to
the flattening call fails on the placeholder main node synthesized for
a list item whose sub-list precedes any text: flattening
`subListFirstAst` at page 7 produces a node with no page at all. -/
theorem placeholder_missing_page :
    Option.none ∈ allPages (markdownToJson [subListFirstAst] 7) ∧
    ¬ (∀ pg ∈ allPages (markdownToJson [subListFirstAst] 7), pg = some 7) := by
  decide

/-- C4: the best trial's rotation is returned exactly when its
confidence clears the fixed threshold of 60 and it is non-zero,
otherwise 0 is returned; on confidences 0:10, 90:85, 180:20, 270:40 the
result is 90, and on 0:50, 90:55, 180:10, 270:20 the result is 0 even
though 90 holds the maximum. -/
theorem determineOptimalRotation_gate :
    (∀ conf : Nat → ℚ,
      (MIN_ROTATION_CONFIDENCE ≤ (bestResult conf).2 ∧ (bestResult conf).1 ≠ 0 →
        determineOptimalRotation conf = (bestResult conf).1) ∧
      (¬ (MIN_ROTATION_CONFIDENCE ≤ (bestResult conf).2 ∧ (bestResult conf).1 ≠ 0) →
        determineOptimalRotation conf = 0)) ∧
    determineOptimalRotation confidencesA = 90 ∧
    determineOptimalRotation confidencesB = 0 := by
  refine ⟨fun conf => ⟨fun h => ?_, fun h => ?_⟩, by decide, by decide⟩
  · simp only [determineOptimalRotation]
    rw [if_pos h]
  · simp only [determineOptimalRotation]
    rw [if_neg h]

/-- Witness for C4: the gate applied to the first worked example. -/
theorem determineOptimalRotation_gate_witness :
    determineOptimalRotation confidencesA = (bestResult confidencesA).1 :=
  (determineOptimalRotation_gate.1 confidencesA).1 (by decide)

/-- C5: the reduction keeps the first trial in candidate order
[0, 90, 180, 270] achieving the maximum confidence — on ties the
earlier candidate wins. -/
theorem bestResult_first_max :
    ∀ conf : Nat → ℚ, bestResult conf = specFirstMax conf := by
  intro conf
  simp only [bestResult, trials, rotations, List.map, reduce1, List.foldl,
    Option.getD]
  rcases lt_or_le (conf 0) (conf 90) with h1 | h1
  · rw [if_pos (show conf 90 > conf 0 from h1)]
    rcases lt_or_le (conf 90) (conf 180) with h2 | h2
    · rw [if_pos (show conf 180 > (90, conf 90).2 from h2)]
      rcases lt_or_le (conf 180) (conf 270) with h3 | h3
      · rw [if_pos (show conf 270 > (180, conf 180).2 from h3)]
        rw [specFirstMax, if_neg (by rintro ⟨ha, -⟩; exact absurd h1 (not_lt.mpr ha)),
          if_neg (by rintro ⟨ha, -⟩; exact absurd h2 (not_lt.mpr ha)),
          if_neg (fun ha => absurd h3 (not_lt.mpr ha))]
      · rw [if_neg (show ¬ conf 270 > (180, conf 180).2 from not_lt.mpr h3)]
        rw [specFirstMax, if_neg (by rintro ⟨ha, -⟩; exact absurd h1 (not_lt.mpr ha)),
          if_neg (by rintro ⟨ha, -⟩; exact absurd h2 (not_lt.mpr ha)),
          if_pos h3]
    · rw [if_neg (show ¬ conf 180 > (90, conf 90).2 from not_lt.mpr h2)]
      rcases lt_or_le (conf 90) (conf 270) with h3 | h3
      · rw [if_pos (show conf 270 > (90, conf 90).2 from h3)]
        rw [specFirstMax, if_neg (by rintro ⟨ha, -⟩; exact absurd h1 (not_lt.mpr ha)),
          if_neg (by rintro ⟨-, hb⟩; exact absurd h3 (not_lt.mpr hb)),
          if_neg (by intro hc; linarith)]
      · rw [if_neg (show ¬ conf 270 > (90, conf 90).2 from not_lt.mpr h3)]
        rw [specFirstMax, if_neg (by rintro ⟨ha, -⟩; exact absurd h1 (not_lt.mpr ha)),
          if_pos ⟨h2, h3⟩]
  · rw [if_neg (show ¬ conf 90 > conf 0 from not_lt.mpr h1)]
    rcases lt_or_le (conf 0) (conf 180) with h2 | h2
    · rw [if_pos (show conf 180 > (0, conf 0).2 from h2)]
      rcases lt_or_le (conf 180) (conf 270) with h3 | h3
      · rw [if_pos (show conf 270 > (180, conf 180).2 from h3)]
        rw [specFirstMax, if_neg (by rintro ⟨-, hb, -⟩; exact absurd h2 (not_lt.mpr hb)),
          if_neg (by rintro ⟨-, hb⟩; linarith),
          if_neg (fun hc => absurd h3 (not_lt.mpr hc))]
      · rw [if_neg (show ¬ conf 270 > (180, conf 180).2 from not_lt.mpr h3)]
        rw [specFirstMax, if_neg (by rintro ⟨-, hb, -⟩; exact absurd h2 (not_lt.mpr hb)),
          if_neg (by rintro ⟨hb, -⟩; linarith),
          if_pos h3]
    · rw [if_neg (show ¬ conf 180 > (0, conf 0).2 from not_lt.mpr h2)]
      rcases lt_or_le (conf 0) (conf 270) with h3 | h3
      · rw [if_pos (show conf 270 > (0, conf 0).2 from h3)]
        rw [specFirstMax, if_neg (by rintro ⟨-, -, hc⟩; exact absurd h3 (not_lt.mpr hc)),
          if_neg (by rintro ⟨-, hb⟩; linarith),
          if_neg (by intro hc; linarith)]
      · rw [if_neg (show ¬ conf 270 > (0, conf 0).2 from not_lt.mpr h3)]
        rw [specFirstMax, if_pos ⟨h1, h2, h3⟩]

/-- C6: every internal failure of the scoring pipeline is absorbed into
a confidence of 0 (the embedding is a total function — no exception
reaches the caller), and whenever the recognizer honours its 0–100
contract the returned confidence lies in [0, 100]. -/
theorem getTextFromImage_total_guard : ∀ (metadata : Except String SharpMeta)
    (extract : Option Int → Int → Int → Int → Except String Nat)
    (recognize : Nat → Except String ℚ),
    (∀ e, ocrPipeline metadata extract recognize = .error e →
      getTextFromImage metadata extract recognize = 0) ∧
    ((∀ b q, recognize b = .ok q → 0 ≤ q ∧ q ≤ 100) →
      0 ≤ getTextFromImage metadata extract recognize ∧
      getTextFromImage metadata extract recognize ≤ 100) := by
  intro md ex re
  constructor
  · intro e he
    simp [getTextFromImage, he]
  · intro hrange
    rcases hp : ocrPipeline md ex re with err | q
    · simp [getTextFromImage, hp]
    · have hq : ∃ b, re b = .ok q := by
        rcases md with e | mdv
        · simp [ocrPipeline] at hp
        · rcases hex : ex (mdv.width.map (fun w => max 0 ((w - 150) / 2))) 0 150
            (mdv.height.getD 0) with e | buf
          · simp [ocrPipeline, hex] at hp
          · simp only [ocrPipeline, hex] at hp
            exact ⟨buf, hp⟩
      obtain ⟨b, hb⟩ := hq
      have := hrange b q hb
      simpa [getTextFromImage, hp] using this

/-- Witness for C6: a run with an always-failing extractor degrades to
confidence 0, and a well-behaved recognizer keeps the result in
[0, 100]. -/
theorem getTextFromImage_total_guard_witness :
    getTextFromImage (.ok ⟨some 600, some 800⟩)
        (fun _ _ _ _ => .error "crop out of bounds") (fun _ => .ok 50) = 0 ∧
    (0 ≤ getTextFromImage (.ok ⟨some 600, some 800⟩)
        (fun _ _ _ _ => .ok 0) (fun _ => .ok 50) ∧
      getTextFromImage (.ok ⟨some 600, some 800⟩)
        (fun _ _ _ _ => .ok 0) (fun _ => .ok 50) ≤ 100) :=
  ⟨(getTextFromImage_total_guard (.ok ⟨some 600, some 800⟩)
      (fun _ _ _ _ => .error "crop out of bounds") (fun _ => .ok 50)).1
      "crop out of bounds" rfl,
   (getTextFromImage_total_guard (.ok ⟨some 600, some 800⟩)
      (fun _ _ _ _ => .ok 0) (fun _ => .ok 50)).2
      (fun b q h => by
        simp only [Except.ok.injEq] at h
        constructor <;> rw [← h] <;> decide)⟩

/-- C7: flattening the list item `[text "a", list [item [text "b"]]]`
produces exactly two nodes — a text main node with value "a" and no
parent, plus a single sibling (the sub-list's node, carrying the nested
item's content) whose `parentId` is the main node's id. -/
theorem processListItem_text_then_sublist :
    ∃ n sib, (processListItem mixedListItem 1 0).1 = (some n, [sib]) ∧
      n.type = .text ∧ n.value = .str "a" ∧ n.parentId = none ∧
      sib.parentId = some n.id :=
  ⟨.mk 0 (some 1) none .text (.str "a"),
   .mk 3 (some 1) (some 0) .list (.arr [.node (.mk 1 (some 1) none .text (.str "b"))]),
   by decide⟩

/-- C8: nodes of the ignored kinds produce no node and no siblings at
all, and a page whose only top-level children are an image and a
thematic break flattens to the empty sequence. -/
theorem ignored_kinds_drop :
    (∀ (n : AstNode) (page : Nat) (pid : Option Nat) (c : Nat),
      n.type ∈ ignoreNodeTypes → processRootNode n page pid c = ([], c)) ∧
    markdownToJson [imageNode, thematicBreakNode] 1 = [] := by
  constructor
  · rintro ⟨t, d, v, cs⟩ page pid c ht
    simp only [AstNode.type, ignoreNodeTypes, List.mem_cons,
      List.not_mem_nil, or_false] at ht
    rcases ht with rfl | rfl | rfl | rfl | rfl <;> rfl
  · decide

/-- Witness for C8: an image node at top level emits nothing. -/
theorem ignored_kinds_drop_witness :
    imageNode.type ∈ ignoreNodeTypes ∧ processRootNode imageNode 5 none 0 = ([], 0) :=
  ⟨by decide, ignored_kinds_drop.1 imageNode 5 none 0 (by decide)⟩

/-- C9: any AST kind outside the recognized output set maps to the
"text" output type — the `type` field of an emitted main node is always
a member of the closed enumeration, never absent. -/
theorem unrecognized_kind_text : ∀ (n : AstNode) (page : Nat)
    (pid : Option Nat) (c : Nat) (m : ProcessedNode)
    (sibs : List ProcessedNode) (c2 : Nat),
    n.type ∉ (["heading", "list", "text"] : List String) →
    processNode n page pid c = (some (m, sibs), c2) →
    m.type = ConvertedNodeType.text := by
  rintro ⟨t, d, v, cs⟩ page pid c m sibs c2 hout heq
  simp only [AstNode.type, List.mem_cons, List.not_mem_nil, or_false,
    not_or] at hout
  obtain ⟨ht1, ht2, ht3⟩ := hout
  have hconv : convType t = .text := by simp [convType, ht1, ht2]
  rcases hpc : processChildren cs page c with ⟨rs, c1⟩
  rcases haux : processListItemAux cs page none [] c with ⟨r, c1x⟩
  simp only [processNode, hpc, haux] at heq
  split_ifs at heq <;>
    first
      | (simp only [Prod.mk.injEq, Option.some.injEq] at heq
         obtain ⟨⟨hm, -⟩, -⟩ := heq
         rw [← hm]
         simp [ProcessedNode.type, hconv])
      | (exact absurd heq (by simp))

/-- Witness for C9: a paragraph (an unrecognized kind) yields a main
node of output type text. -/
theorem unrecognized_kind_text_witness :
    (paragraphNode []).type ∉ (["heading", "list", "text"] : List String) ∧
    (ProcessedNode.mk 0 (some 1) none .text (.str "")).type =
      ConvertedNodeType.text :=
  ⟨by decide,
   unrecognized_kind_text (paragraphNode []) 1 none 0
     (.mk 0 (some 1) none .text (.str "")) [] 1 (by decide) (by decide)⟩

/-- C10: `processNode` never drops a list item (the list-item processor
always yields a result), and a list whose first item's children are all
ignored carries an `undefined` entry in that item's slot of the list
value — not a list-item structure. -/
theorem listItem_not_dropped :
    (∀ (d : Nat) (v : String) (cs : List AstNode) (page : Nat)
      (pid : Option Nat) (c : Nat),
      ((processNode (.mk "listItem" d v cs) page pid c).1).isSome = true) ∧
    (∃ m c2, processNode droppedItemList 1 none 0 = (some (m, []), c2) ∧
      valueTags m.value = some [0, 2]) := by
  constructor
  · intro d v cs page pid c
    rcases haux : processListItemAux cs page none [] c with ⟨r, c1⟩
    simp [processNode, haux, literals]
  · exact ⟨.mk 3 (some 1) none .list
      (.arr [.undef, .node (.mk 1 (some 1) none .text (.str "x"))]), 4,
      by decide⟩

end Zerox
